import Mathlib

/-!
# Reverse-index search engine (`search.h`): embedding and verification

The C++ source keeps its data in `std::string`, `std::set<string>` and
`std::map<string, set<string>>`.  They are embedded as

* `Str`    : `List Char`, one `Char` per `char` of the string, classified by the
             `<cctype>` predicates of the "C" locale (a character outside ASCII is
             in no class and is left alone by `tolower`);
* sets     : `Finset Str`; a range-`for` over a set visits `ascending` (the elements
             in increasing order), and the STL algorithms `set_union`,
             `set_intersection`, `set_difference` on two sets are the Finset
             operations;
* `Index`  : `Finmap` from `Str` to `Finset Str`, with `count`, `at` and `emplace`.

A computation that reads a string outside its valid range, or calls `map::at`
on a missing key, has no defined result in C++; it is embedded as
`Except.error Fault.outOfRange`.  The two `while` loops of `cleanToken` run on
fuel; `Fault.fuel` is the result of too little fuel, and the fuel handed over
by `cleanToken` is shown to be always enough (`cleanToken_ne_fuel`).

File and console input is outside the embedding: `buildIndex` takes the rows that
its loop reads from the data file and the stop-word set chosen at the prompt.  The
`int` counters of `buildIndex` are natural numbers.
-/

namespace SearchEngine

/-- A `std::string`, as the list of its characters. -/
abbrev Str := List Char

/-- Ways in which the embedded code can fail to produce a value. -/
inductive Fault where
  | outOfRange
  | fuel
  deriving DecidableEq, Repr

instance instDecidableEqExcept {ε α : Type} [DecidableEq ε] [DecidableEq α] :
    DecidableEq (Except ε α)
  | .ok a, .ok b => decidable_of_iff (a = b) ⟨fun h => congrArg Except.ok h, fun h => Except.ok.inj h⟩
  | .error a, .error b =>
    decidable_of_iff (a = b) ⟨fun h => congrArg Except.error h, fun h => Except.error.inj h⟩
  | .ok _, .error _ => isFalse (fun h => Except.noConfusion h)
  | .error _, .ok _ => isFalse (fun h => Except.noConfusion h)

/-- Result of an embedded C++ computation. -/
abbrev Res := Except Fault

/-! ## `<cctype>` in the "C" locale -/

/-- `ispunct`: the printable characters that are neither alphanumeric nor the space. -/
def ispunct (c : Char) : Bool :=
  let n := c.toNat
  (33 ≤ n && n ≤ 47) || (58 ≤ n && n ≤ 64) || (91 ≤ n && n ≤ 96) || (123 ≤ n && n ≤ 126)

/-- `isalpha`: `A`..`Z` and `a`..`z`. -/
def isalpha (c : Char) : Bool :=
  let n := c.toNat
  (65 ≤ n && n ≤ 90) || (97 ≤ n && n ≤ 122)

/-- `isspace`: space, `\t`, `\n`, `\v`, `\f`, `\r`. -/
def isspace (c : Char) : Bool :=
  let n := c.toNat
  n = 32 || (9 ≤ n && n ≤ 13)

/-- `tolower`: `A`..`Z` are moved to `a`..`z`, every other character is unchanged. -/
def tolower (c : Char) : Char :=
  let n := c.toNat
  if 65 ≤ n ∧ n ≤ 90 then Char.ofNat (n + 32) else c

/-! ## `std::string` primitives -/

/-- `s.size() - 1` in `size_t`: the subtraction wraps to `2^64 - 1` when the size is 0
(a string's size is below `2^64`, so this is the only wrap-around). -/
def sizeMinusOne (s : Str) : Nat :=
  if s.length = 0 then 2 ^ 64 - 1 else s.length - 1

/-- `s[i]`: a character of the string for `i < size`, the terminator `'\0'` for
`i = size`, and an out-of-range access for every larger index. -/
def charAt (s : Str) (i : Nat) : Res Char :=
  if i < s.length then .ok (s.getD i '\x00')
  else if i = s.length then .ok '\x00'
  else .error .outOfRange

/-- `s.erase(0, 1)`: removes the first character if there is one. -/
def eraseFirst (s : Str) : Str := s.drop 1

/-- `s.pop_back()`: removes the last character; the string must not be empty. -/
def popBack (s : Str) : Res Str :=
  if s.length = 0 then .error .outOfRange else .ok s.dropLast

/-! ## `cleanToken` -/

/-- First loop of `cleanToken`: `while(ispunct(s[0])) s.erase(0, 1);` -/
def eraseLeading : Nat → Str → Res Str
  | 0, _ => .error .fuel
  | n + 1, s => do
    let c ← charAt s 0
    if ispunct c then eraseLeading n (eraseFirst s) else pure s

/-- Second loop of `cleanToken`: `while(ispunct(s[s.size() - 1])) s.pop_back();` -/
def popTrailing : Nat → Str → Res Str
  | 0, _ => .error .fuel
  | n + 1, s => do
    let c ← charAt s (sizeMinusOne s)
    if ispunct c then do
      let s1 ← popBack s
      popTrailing n s1
    else pure s

/-- Third loop of `cleanToken`, `for(char &c : s)`: records in `hasLetters` whether a
letter was seen and lowercases every character that is not punctuation. -/
def lowerLoop : Str → Bool → Bool × Str
  | [], hasLetters => (hasLetters, [])
  | c :: cs, hasLetters =>
    let hasLetters1 := if isalpha c then true else hasLetters
    let c1 := if !ispunct c then tolower c else c
    let r := lowerLoop cs hasLetters1
    (r.1, c1 :: r.2)

/-- The function `cleanToken` of `search.h`. -/
def cleanToken (s : Str) : Res Str := do
  let s1 ← eraseLeading (s.length + 1) s
  let s2 ← popTrailing (s1.length + 1) s1
  let r := lowerLoop s2 false
  if r.1 then pure r.2 else pure []

/-! ## Word extraction (`stream >> word`) -/

/-- Splits the characters still to be read, `cur` being the reversed word in progress. -/
def splitAux : Str → Str → List Str
  | [], cur => if cur.isEmpty then [] else [cur.reverse]
  | c :: cs, cur =>
    if isspace c then
      if cur.isEmpty then splitAux cs [] else cur.reverse :: splitAux cs []
    else splitAux cs (c :: cur)

/-- The words that repeated `inText >> word` extracts from a string stream over `text`:
the maximal runs of non-whitespace characters, in order. -/
def splitWords (text : Str) : List Str := splitAux text []

/-! ## Sets and the index -/

/-- The elements of a `std::set<string>` in iteration order (ascending). -/
def ascending (s : Finset Str) : List Str :=
  Quot.liftOn s.val (List.insertionSort (· ≤ ·)) (fun a b h =>
    List.eq_of_perm_of_sorted
      ((List.perm_insertionSort _ a).trans (h.trans (List.perm_insertionSort _ b).symm))
      (List.sorted_insertionSort _ a) (List.sorted_insertionSort _ b))

/-- The reverse index, `map<string, set<string>>`. -/
abbrev Index := Finmap (fun _ : Str => Finset Str)

/-- `index.count(key)`: 1 when the key is present, 0 otherwise. -/
def mapCount (index : Index) (key : Str) : Nat :=
  if (index.lookup key).isSome then 1 else 0

/-- `index.at(key)`: the stored set; a missing key is an error (`std::out_of_range`). -/
def mapAt (index : Index) (key : Str) : Res (Finset Str) :=
  match index.lookup key with
  | some urls => .ok urls
  | none => .error .outOfRange

/-- `index.emplace(key, urls)`: adds the entry unless the key is already present. -/
def mapEmplace (index : Index) (key : Str) (urls : Finset Str) : Index :=
  if (index.lookup key).isSome then index else index.insert key urls

/-! ## `gatherTokens` -/

/-- The stop-word loop of `gatherTokens`:
`for(stopword : stopwords) if(curStr == stopword) curStr = "";` -/
def stopwordLoop : List Str → Str → Str
  | [], curStr => curStr
  | stopword :: rest, curStr =>
    stopwordLoop rest (if curStr = stopword then [] else curStr)

/-- Body of the `while(inText >> curStr)` loop of `gatherTokens`. -/
def gatherStep (stopwords : Finset Str) (tokens : Finset Str) (word : Str) :
    Res (Finset Str) := do
  let curStr ← cleanToken word
  let curStr1 :=
    if stopwords ≠ ∅ then stopwordLoop (ascending stopwords) curStr else curStr
  if curStr1 ≠ [] then pure (insert curStr1 tokens) else pure tokens

/-- The function `gatherTokens` of `search.h`. -/
def gatherTokens (text : Str) (stopwords : Finset Str) : Res (Finset Str) :=
  (splitWords text).foldlM (gatherStep stopwords) ∅

/-! ## `buildIndex` -/

/-- Body of `for (auto &token : tokens)` in `buildIndex`; the state is the local set
`urls` and the index. -/
def indexToken (curUrl : Str) (st : Finset Str × Index) (token : Str) :
    Res (Finset Str × Index) :=
  if mapCount st.2 token = 1 then do
    let old ← mapAt st.2 token
    pure (st.1, st.2.insert token (insert curUrl old))
  else
    let urls := insert curUrl st.1
    pure (urls, mapEmplace st.2 token urls)

/-- Loop state of `buildIndex`. -/
structure BuildState where
  curLine : Nat
  curUrl : Str
  totalUrls : Nat
  index : Index

/-- Body of the `while(!inStream.eof())` loop of `buildIndex` for one row of the file. -/
def buildStep (stopwords : Finset Str) (st : BuildState) (curRow : Str) : Res BuildState :=
  if st.curLine % 2 = 1 then
    pure { st with curLine := st.curLine + 1, curUrl := curRow, totalUrls := st.totalUrls + 1 }
  else do
    let tokens ← gatherTokens curRow stopwords
    let r ← (ascending tokens).foldlM (indexToken st.curUrl) (∅, st.index)
    pure { st with curLine := st.curLine + 1, index := r.2 }

/-- The function `buildIndex` of `search.h`, for the rows read from the data file, the
stop-word set chosen at the prompt, and the map passed by reference.  Returns the
count of URLs and the map as it is left. -/
def buildIndex (rows : List Str) (stopwords : Finset Str) (index : Index) :
    Res (Nat × Index) := do
  let st ← rows.foldlM (buildStep stopwords)
    { curLine := 1, curUrl := [], totalUrls := 0, index := index }
  pure (st.totalUrls, st.index)

/-- The rows of the data file of a corpus: for each document its identifier, then its text. -/
def corpusRows : List (Str × Str) → List Str
  | [] => []
  | d :: ds => d.1 :: d.2 :: corpusRows ds

/-! ## `findQueryMatches` -/

/-- The lookup shared by the three branches of `findQueryMatches`:
`if(index.count(term)) curUrls = index.at(term); else curUrls = {};` -/
def termUrls (index : Index) (term : Str) : Res (Finset Str) :=
  if mapCount index term ≠ 0 then mapAt index term else pure ∅

/-- Body of the `while(inText >> term)` loop of `findQueryMatches`.  The locals
`curUrls` and `tempHolder` are cleared on entry; the STL algorithm writes its output
into `tempHolder` through an inserter, and `tempHolder` is then copied to `result`. -/
def queryStep (index : Index) (result : Finset Str) (term : Str) : Res (Finset Str) := do
  let tempHolder : Finset Str := ∅
  let c ← charAt term 0
  if c = '+' then do
    let term1 ← cleanToken term
    let curUrls ← termUrls index term1
    pure (tempHolder ∪ (result ∩ curUrls))
  else if c = '-' then do
    let term1 ← cleanToken term
    let curUrls ← termUrls index term1
    pure (tempHolder ∪ (result \ curUrls))
  else do
    let term1 ← cleanToken term
    let curUrls ← termUrls index term1
    pure (tempHolder ∪ (result ∪ curUrls))

/-- The function `findQueryMatches` of `search.h`. -/
def findQueryMatches (index : Index) (sentence : Str) : Res (Finset Str) :=
  (splitWords sentence).foldlM (queryStep index) ∅

/-- `index.count(key)` as a step on the map passed by reference: `count` is a `const`
member function and hands the map back as it is. -/
def mapCountRef (index : Index) (key : Str) : Index × Nat :=
  (index, mapCount index key)

/-- `index.at(key)` as a step on the map passed by reference: unlike `operator[]`, `at`
adds no entry for a missing key. -/
def mapAtRef (index : Index) (key : Str) : Index × Res (Finset Str) :=
  (index, mapAt index key)

/-- The lookup `if(index.count(term)) curUrls = index.at(term); else curUrls = {};`
with the map threaded through. -/
def termUrlsRef (index : Index) (term : Str) : Index × Res (Finset Str) :=
  let r := mapCountRef index term
  if r.2 ≠ 0 then mapAtRef r.1 term else (r.1, .ok ∅)

/-- `term = cleanToken(term);` followed by the lookup, with the map threaded through. -/
def lookupRef (index : Index) (term : Str) : Index × Res (Finset Str) :=
  match cleanToken term with
  | .error e => (index, .error e)
  | .ok term1 => termUrlsRef index term1

/-- Body of the loop of `findQueryMatches` with the map threaded through: the first
component is the map as the iteration leaves it, also when the iteration fails. -/
def queryStepRef (index : Index) (result : Finset Str) (term : Str) :
    Index × Res (Finset Str) :=
  match charAt term 0 with
  | .error e => (index, .error e)
  | .ok c =>
    let r := lookupRef index term
    if c = '+' then (r.1, r.2.map (fun curUrls => ∅ ∪ (result ∩ curUrls)))
    else if c = '-' then (r.1, r.2.map (fun curUrls => ∅ ∪ (result \ curUrls)))
    else (r.1, r.2.map (fun curUrls => ∅ ∪ (result ∪ curUrls)))

/-- The loop of `findQueryMatches` over the terms still to be read, with the map
threaded through. -/
def queryLoopRef : List Str → Index → Finset Str → Index × Res (Finset Str)
  | [], index, result => (index, .ok result)
  | term :: rest, index, result =>
    let r := queryStepRef index result term
    match r.2 with
    | .ok result1 => queryLoopRef rest r.1 result1
    | .error e => (r.1, .error e)

/-- The function `findQueryMatches` together with its parameter `index`, which is
passed by reference, as the call leaves it. -/
def findQueryMatchesRef (index : Index) (sentence : Str) : Index × Res (Finset Str) :=
  queryLoopRef (splitWords sentence) index ∅

/-! ## `getStopWords` -/

/-- Body of the `while(!inStream.eof())` loop of `getStopWords`:
`curword = cleanToken(curword); stopwords.insert(curword);` -/
def stopWordStep (stopwords : Finset Str) (curword : Str) : Res (Finset Str) := do
  let curword1 ← cleanToken curword
  pure (insert curword1 stopwords)

/-- The function `getStopWords` of `search.h`, for the lines that its loop reads from
the stop-word file. -/
def getStopWords (lines : List Str) : Res (Finset Str) :=
  lines.foldlM stopWordStep ∅

/-! ## Reference definitions, in the words of the specification -/

/-- The words of a text, each normalised by `cleanToken`. -/
def cleanWords : List Str → Res (List Str)
  | [] => pure []
  | w :: ws => do
    let t ← cleanToken w
    let ts ← cleanWords ws
    pure (t :: ts)

/-- The reference for `gatherTokens` with a plain set-membership test: the set of the
`cleanToken(w)`, `w` a whitespace-delimited word of the text, that are not empty and
not a member of the stop-word set. -/
def gatherTokensRef (text : Str) (stopwords : Finset Str) : Res (Finset Str) := do
  let ts ← cleanWords (splitWords text)
  pure (ts.toFinset.filter (fun t => t ≠ [] ∧ t ∉ stopwords))

/-- Lowercasing of one character: an alphabetic character becomes its lowercase form,
any other character is kept. -/
def lowerAlpha (c : Char) : Char := if isalpha c then tolower c else c

/-- All leading punctuation characters removed, then all trailing ones; what lies
between is kept. -/
def stripPunct (s : Str) : Str := (s.dropWhile ispunct).rdropWhile ispunct

/-- The normalised form of a word as the specification describes it: strip the
punctuation at both ends, lowercase the letters, and give the empty token when no
letter remains. -/
def normalizeSpec (s : Str) : Str :=
  if (stripPunct s).any isalpha then (stripPunct s).map lowerAlpha else []

/-- The surviving tokens of a text: its whitespace-delimited words, normalised, without
the empty results and without the stop words. -/
def survivingTokens (text : Str) (stopwords : Finset Str) : Finset Str :=
  (((splitWords text).map normalizeSpec).toFinset).filter
    (fun t => t ≠ [] ∧ t ∉ stopwords)

/-- The text has no word that consists of punctuation only. -/
def NoPunctWord (text : Str) : Prop :=
  ∀ w ∈ splitWords text, w.dropWhile ispunct ≠ []

/-- The set a query term stands for: the index entry of its normalised form, or the
empty set when there is none. -/
def termSet (index : Index) (term : Str) : Finset Str :=
  (index.lookup (normalizeSpec term)).getD ∅

/-- One step of query folding: intersect for a leading `+`, exclude for a leading `-`,
unite otherwise. -/
def specStep (index : Index) (R : Finset Str) (term : Str) : Finset Str :=
  if term.head? = some '+' then R ∩ termSet index term
  else if term.head? = some '-' then R \ termSet index term
  else R ∪ termSet index term

/-- The left fold of the query terms, in order, from the empty set. -/
def foldSpec (index : Index) (sentence : Str) : Finset Str :=
  (splitWords sentence).foldl (specStep index) ∅

/-- The corpus of the concrete scenario of the specification. -/
def scenarioCorpus : List (Str × Str) :=
  [("d1".toList, "Hello World".toList), ("d2".toList, "hello there".toList)]

/-- The index of the concrete scenario of the specification. -/
def scenarioIndex : Index :=
  ((Finmap.singleton "hello".toList {"d1".toList, "d2".toList}).insert
    "world".toList {"d1".toList}).insert "there".toList {"d2".toList}

/-- An index with disjoint entries for `apple` and `banana`. -/
def fruitIndex : Index :=
  (Finmap.singleton "apple".toList {"d1".toList}).insert "banana".toList {"d2".toList}

/-- A token as the data model describes it: not empty, with at least one letter, no
punctuation at either end, and unchanged by lowercasing. -/
def CleanToken (t : Str) : Prop :=
  t ≠ [] ∧ (∃ c ∈ t, isalpha c = true) ∧ (∀ c, t.head? = some c → ispunct c = false) ∧
    (∀ c, t.getLast? = some c → ispunct c = false) ∧ t.map lowerAlpha = t

/-! ## Character classes -/

theorem toNat_ofNat_add32 (n : Nat) (h1 : 65 ≤ n) (h2 : n ≤ 90) :
    (Char.ofNat (n + 32)).toNat = n + 32 := by
  interval_cases n <;> rfl

theorem tolower_toNat (c : Char) :
    (tolower c).toNat = if 65 ≤ c.toNat ∧ c.toNat ≤ 90 then c.toNat + 32 else c.toNat := by
  unfold tolower
  by_cases h : 65 ≤ c.toNat ∧ c.toNat ≤ 90
  · simp only [h, and_self, if_true]
    exact toNat_ofNat_add32 _ h.1 h.2
  · simp only [h, if_false]

theorem ispunct_tolower (c : Char) : ispunct (tolower c) = ispunct c := by
  unfold ispunct
  simp only [tolower_toNat]
  by_cases h : 65 ≤ c.toNat ∧ c.toNat ≤ 90
  · rw [if_pos h]
    obtain ⟨h1, h2⟩ := h
    rw [Bool.eq_iff_iff]
    simp only [Bool.or_eq_true, Bool.and_eq_true, decide_eq_true_eq]
    constructor <;> intro h <;> omega
  · rw [if_neg h]

theorem isalpha_tolower (c : Char) : isalpha (tolower c) = isalpha c := by
  unfold isalpha
  simp only [tolower_toNat]
  by_cases h : 65 ≤ c.toNat ∧ c.toNat ≤ 90
  · rw [if_pos h]
    obtain ⟨h1, h2⟩ := h
    rw [Bool.eq_iff_iff]
    simp only [Bool.or_eq_true, Bool.and_eq_true, decide_eq_true_eq]
    constructor <;> intro h <;> omega
  · rw [if_neg h]

theorem isspace_tolower (c : Char) : isspace (tolower c) = isspace c := by
  unfold isspace
  simp only [tolower_toNat]
  by_cases h : 65 ≤ c.toNat ∧ c.toNat ≤ 90
  · rw [if_pos h]
    obtain ⟨h1, h2⟩ := h
    rw [Bool.eq_iff_iff]
    simp only [Bool.or_eq_true, Bool.and_eq_true, decide_eq_true_eq]
    constructor <;> intro h <;> omega
  · rw [if_neg h]

theorem tolower_tolower (c : Char) : tolower (tolower c) = tolower c := by
  have h := tolower_toNat c
  have h2 : ¬ (65 ≤ (tolower c).toNat ∧ (tolower c).toNat ≤ 90) := by
    rw [h]
    split <;> omega
  show (if 65 ≤ (tolower c).toNat ∧ (tolower c).toNat ≤ 90
    then Char.ofNat ((tolower c).toNat + 32) else tolower c) = tolower c
  rw [if_neg h2]

theorem isalpha_not_ispunct (c : Char) (h : isalpha c = true) : ispunct c = false := by
  unfold isalpha at h
  unfold ispunct
  simp only [Bool.or_eq_true, Bool.and_eq_true, decide_eq_true_eq] at h
  rw [Bool.eq_false_iff]
  simp only [ne_eq, Bool.or_eq_true, Bool.and_eq_true, decide_eq_true_eq]
  omega

theorem tolower_of_not_isalpha (c : Char) (h : isalpha c = false) : tolower c = c := by
  unfold isalpha at h
  rw [Bool.eq_false_iff] at h
  simp only [ne_eq, Bool.or_eq_true, Bool.and_eq_true, decide_eq_true_eq] at h
  unfold tolower
  rw [if_neg]
  omega

theorem ispunct_terminator : ispunct '\x00' = false := by decide

/-- The character written back by the third loop is the lowercased letter. -/
theorem lowerStep_eq (c : Char) : (if !ispunct c then tolower c else c) = lowerAlpha c := by
  unfold lowerAlpha
  cases ha : isalpha c
  · rw [tolower_of_not_isalpha c ha]
    simp
  · rw [isalpha_not_ispunct c ha]
    simp

theorem ispunct_lowerAlpha (c : Char) : ispunct (lowerAlpha c) = ispunct c := by
  unfold lowerAlpha
  split
  · exact ispunct_tolower c
  · rfl

theorem isalpha_lowerAlpha (c : Char) : isalpha (lowerAlpha c) = isalpha c := by
  unfold lowerAlpha
  split
  · exact isalpha_tolower c
  · rfl

theorem isspace_lowerAlpha (c : Char) : isspace (lowerAlpha c) = isspace c := by
  unfold lowerAlpha
  split
  · exact isspace_tolower c
  · rfl

theorem lowerAlpha_lowerAlpha (c : Char) : lowerAlpha (lowerAlpha c) = lowerAlpha c := by
  cases ha : isalpha c
  · have e : lowerAlpha c = c := by unfold lowerAlpha; simp [ha]
    rw [e, e]
  · have e : lowerAlpha c = tolower c := by unfold lowerAlpha; simp [ha]
    rw [e]
    unfold lowerAlpha
    rw [isalpha_tolower, ha, if_pos rfl, tolower_tolower]

/-! ## The loops of `cleanToken` -/

theorem lowerLoop_eq (s : Str) (b : Bool) :
    lowerLoop s b = (b || s.any isalpha, s.map lowerAlpha) := by
  induction s generalizing b with
  | nil => simp [lowerLoop]
  | cons c cs ih =>
    simp only [lowerLoop, ih, lowerStep_eq, List.any_cons, List.map_cons]
    cases isalpha c <;> cases b <;> simp

theorem charAt_zero_nil : charAt [] 0 = .ok '\x00' := by decide

theorem charAt_zero_cons (c : Char) (cs : Str) : charAt (c :: cs) 0 = .ok c := by
  simp [charAt]

/-- With more fuel than characters, the first loop ends and leaves the string without
its leading punctuation. -/
theorem eraseLeading_eq (n : Nat) (s : Str) (h : s.length < n) :
    eraseLeading n s = .ok (s.dropWhile ispunct) := by
  induction n generalizing s with
  | zero => omega
  | succ n ih =>
    cases s with
    | nil =>
      simp [eraseLeading, charAt_zero_nil, ispunct_terminator, bind, Except.bind, pure,
        Except.pure]
    | cons c cs =>
      have hl : cs.length < n := by simpa using h
      cases hc : ispunct c
      · simp [eraseLeading, charAt_zero_cons, hc, bind, Except.bind, pure, Except.pure]
      · simp [eraseLeading, charAt_zero_cons, hc, bind, Except.bind, eraseFirst, ih cs hl]

/-- For a string of a size that `size_t` can hold, `sizeMinusOne` is the subtraction
modulo `2^64`. -/
theorem sizeMinusOne_eq_mod (s : Str) (h : s.length < 2 ^ 64) :
    sizeMinusOne s = (s.length + (2 ^ 64 - 1)) % 2 ^ 64 := by
  unfold sizeMinusOne
  split <;> omega

theorem charAt_last_nil : charAt [] (sizeMinusOne []) = .error .outOfRange := by decide

theorem charAt_last_concat (s : Str) (c : Char) :
    charAt (s ++ [c]) (sizeMinusOne (s ++ [c])) = .ok c := by
  simp [charAt, sizeMinusOne, List.getD_eq_getElem]

/-- With more fuel than characters, the second loop either reads out of range (when
every character it meets is punctuation) or leaves the string without its trailing
punctuation. -/
theorem popTrailing_eq (n : Nat) (s : Str) (h : s.length < n) :
    popTrailing n s =
      if s.rdropWhile ispunct = [] then .error .outOfRange
      else .ok (s.rdropWhile ispunct) := by
  induction n generalizing s with
  | zero => omega
  | succ n ih =>
    rcases List.eq_nil_or_concat s with rfl | ⟨t, c, rfl⟩
    · simp [popTrailing, charAt_last_nil, bind, Except.bind]
    · rw [List.concat_eq_append] at h ⊢
      have hl : t.length < n := by simpa using h
      cases hc : ispunct c
      · have hc2 : ¬ ispunct c = true := by simp [hc]
        simp [popTrailing, charAt_last_concat, hc, bind, Except.bind, pure, Except.pure,
          List.rdropWhile_concat_neg _ _ _ hc2]
      · simp [popTrailing, charAt_last_concat, hc, bind, Except.bind, popBack, ih t hl,
          List.rdropWhile_concat_pos _ _ _ hc]

theorem stripPunct_ne_nil (s : Str) (h : s.dropWhile ispunct ≠ []) : stripPunct s ≠ [] := by
  unfold stripPunct
  intro hn
  rw [List.rdropWhile_eq_nil_iff] at hn
  have h1 := List.head_dropWhile_not ispunct s h
  have h2 := hn _ (List.head_mem h)
  rw [h1] at h2
  exact Bool.noConfusion h2

/-- What `cleanToken` computes on every input: an out-of-range read when nothing is
left after the leading punctuation, the normalised word otherwise. -/
theorem cleanToken_eq (s : Str) :
    cleanToken s =
      if s.dropWhile ispunct = [] then .error .outOfRange else .ok (normalizeSpec s) := by
  unfold cleanToken
  rw [eraseLeading_eq _ s (Nat.lt_succ_self _)]
  simp only [bind, Except.bind]
  rw [popTrailing_eq _ _ (Nat.lt_succ_self _)]
  by_cases h : s.dropWhile ispunct = []
  · simp [h]
  · have h2 := stripPunct_ne_nil s h
    unfold stripPunct at h2
    simp only [h, h2, if_false, lowerLoop_eq, Bool.false_or, normalizeSpec, stripPunct]
    split <;> rfl

/-- The fuel that `cleanToken` hands to its loops is never used up. -/
theorem cleanToken_ne_fuel (s : Str) : cleanToken s ≠ .error .fuel := by
  rw [cleanToken_eq]
  split <;> intro e <;> cases e

theorem cleanToken_of_allPunct (s : Str) (h : ∀ c ∈ s, ispunct c = true) :
    cleanToken s = .error .outOfRange := by
  rw [cleanToken_eq, if_pos (List.dropWhile_eq_nil_iff.mpr h)]

theorem cleanToken_ok_iff (s t : Str) :
    cleanToken s = .ok t ↔ s.dropWhile ispunct ≠ [] ∧ t = normalizeSpec s := by
  rw [cleanToken_eq]
  by_cases h : s.dropWhile ispunct = []
  · simp [h]
  · simp only [h, if_false, ne_eq, not_false_eq_true, true_and]
    constructor
    · intro e
      exact (Except.ok.inj e).symm
    · intro e
      rw [e]

/-! ## Shape of the normalised word -/

theorem stripPunct_head (s : Str) (c : Char) (h : (stripPunct s).head? = some c) :
    ispunct c = false := by
  unfold stripPunct at h
  have hne : (s.dropWhile ispunct).rdropWhile ispunct ≠ [] := by
    intro e
    rw [e] at h
    exact Option.noConfusion h
  obtain ⟨rest, hrest⟩ := List.rdropWhile_prefix ispunct (s.dropWhile ispunct)
  have h2 : (s.dropWhile ispunct).head? = some c := by
    rw [← hrest, List.head?_append_of_ne_nil _ hne]
    exact h
  have h3 := List.head?_dropWhile_not ispunct s
  rw [h2] at h3
  exact h3

theorem stripPunct_getLast (s : Str) (c : Char) (h : (stripPunct s).getLast? = some c) :
    ispunct c = false := by
  unfold stripPunct at h
  have hne : (s.dropWhile ispunct).rdropWhile ispunct ≠ [] := by
    intro e
    rw [e] at h
    exact Option.noConfusion h
  rw [List.getLast?_eq_getLast _ hne] at h
  have h2 := List.rdropWhile_last_not ispunct (s.dropWhile ispunct) hne
  rw [Option.some.inj h] at h2
  simpa using h2

theorem stripPunct_subset (s : Str) : stripPunct s ⊆ s :=
  fun _ hc => (List.dropWhile_suffix ispunct).subset
    ((List.rdropWhile_prefix ispunct _).subset hc)

/-- A non-empty normalised word is a well-formed token. -/
theorem normalizeSpec_clean (s : Str) (h : normalizeSpec s ≠ []) :
    CleanToken (normalizeSpec s) := by
  unfold normalizeSpec at h ⊢
  by_cases ha : (stripPunct s).any isalpha = true
  · rw [if_pos ha] at h ⊢
    refine ⟨h, ?_, ?_, ?_, ?_⟩
    · obtain ⟨c, hc, hca⟩ := List.any_eq_true.mp ha
      exact ⟨lowerAlpha c, List.mem_map_of_mem _ hc, by rw [isalpha_lowerAlpha]; exact hca⟩
    · intro c hc
      rw [List.head?_map] at hc
      cases hh : (stripPunct s).head? with
      | none => rw [hh] at hc; exact Option.noConfusion hc
      | some d =>
        rw [hh] at hc
        rw [← Option.some.inj hc, ispunct_lowerAlpha]
        exact stripPunct_head s d hh
    · intro c hc
      rw [List.getLast?_map] at hc
      cases hh : (stripPunct s).getLast? with
      | none => rw [hh] at hc; exact Option.noConfusion hc
      | some d =>
        rw [hh] at hc
        rw [← Option.some.inj hc, ispunct_lowerAlpha]
        exact stripPunct_getLast s d hh
    · rw [List.map_map]
      apply List.map_congr_left
      intro c _
      exact lowerAlpha_lowerAlpha c
  · rw [if_neg ha] at h
    exact absurd rfl h

theorem normalizeSpec_no_space (s : Str) (hs : ∀ c ∈ s, isspace c = false) :
    ∀ c ∈ normalizeSpec s, isspace c = false := by
  intro c hc
  unfold normalizeSpec at hc
  split at hc
  · obtain ⟨d, hd, rfl⟩ := List.mem_map.mp hc
    rw [isspace_lowerAlpha]
    exact hs d (stripPunct_subset s hd)
  · simp at hc

theorem stripPunct_of_clean (t : Str) (h : CleanToken t) : stripPunct t = t := by
  obtain ⟨hne, _, hhead, hlast, _⟩ := h
  unfold stripPunct
  have h1 : t.dropWhile ispunct = t := by
    cases t with
    | nil => rfl
    | cons a as =>
      have := hhead a rfl
      rw [List.dropWhile_cons, this]
      simp
  rw [h1, List.rdropWhile_eq_self_iff]
  intro hl
  have := hlast _ (List.getLast?_eq_getLast t hl)
  simp [this]

theorem normalizeSpec_of_clean (t : Str) (h : CleanToken t) : normalizeSpec t = t := by
  unfold normalizeSpec
  rw [stripPunct_of_clean t h]
  obtain ⟨_, ⟨c, hc, hca⟩, _, _, hmap⟩ := h
  rw [if_pos (List.any_eq_true.mpr ⟨c, hc, hca⟩), hmap]

/-- The normalisation of the specification is idempotent. -/
theorem normalizeSpec_idempotent (s : Str) :
    normalizeSpec (normalizeSpec s) = normalizeSpec s := by
  by_cases h : normalizeSpec s = []
  · rw [h]
    rfl
  · exact normalizeSpec_of_clean _ (normalizeSpec_clean s h)

/-- The function `cleanToken` returns a well-formed token unchanged. -/
theorem cleanToken_of_clean (t : Str) (h : CleanToken t) : cleanToken t = .ok t := by
  rw [cleanToken_ok_iff]
  refine ⟨?_, (normalizeSpec_of_clean t h).symm⟩
  have h1 := stripPunct_of_clean t h
  unfold stripPunct at h1
  intro e
  rw [e] at h1
  exact h.1 (by simpa using h1.symm)

/-! ## Word extraction -/

theorem splitAux_words (s cur : Str) (hcur : ∀ c ∈ cur, isspace c = false) :
    ∀ w ∈ splitAux s cur, w ≠ [] ∧ ∀ c ∈ w, isspace c = false := by
  induction s generalizing cur with
  | nil =>
    intro w hw
    unfold splitAux at hw
    cases cur with
    | nil => simp at hw
    | cons a as =>
      simp only [List.isEmpty_cons, Bool.false_eq_true, if_false, List.mem_singleton] at hw
      subst hw
      refine ⟨by simp, ?_⟩
      intro c hc
      exact hcur c (List.mem_reverse.mp hc)
  | cons x xs ih =>
    intro w hw
    unfold splitAux at hw
    cases hx : isspace x
    · rw [hx] at hw
      simp only [Bool.false_eq_true, if_false] at hw
      refine ih (x :: cur) ?_ w hw
      intro c hc
      rcases List.mem_cons.mp hc with rfl | hc
      · exact hx
      · exact hcur c hc
    · rw [hx] at hw
      simp only [if_true] at hw
      cases cur with
      | nil =>
        simp only [List.isEmpty_nil, if_true] at hw
        exact ih [] (by simp) w hw
      | cons a as =>
        simp only [List.isEmpty_cons, Bool.false_eq_true, if_false, List.mem_cons] at hw
        rcases hw with rfl | hw
        · refine ⟨by simp, ?_⟩
          intro c hc
          exact hcur c (List.mem_reverse.mp hc)
        · exact ih [] (by simp) w hw

/-- Every extracted word is non-empty and free of whitespace. -/
theorem splitWords_words (text : Str) :
    ∀ w ∈ splitWords text, w ≠ [] ∧ ∀ c ∈ w, isspace c = false :=
  splitAux_words text [] (by simp)

theorem splitAux_of_no_space (s cur : Str) (hs : ∀ c ∈ s, isspace c = false) :
    splitAux s cur = if (cur.reverse ++ s).isEmpty then [] else [cur.reverse ++ s] := by
  induction s generalizing cur with
  | nil =>
    unfold splitAux
    cases cur <;> simp
  | cons x xs ih =>
    have hx : isspace x = false := hs x (List.mem_cons_self _ _)
    unfold splitAux
    rw [hx]
    simp only [Bool.false_eq_true, if_false]
    rw [ih (x :: cur) (fun c hc => hs c (List.mem_cons_of_mem _ hc))]
    simp

/-- A non-empty string without whitespace is read back as one word. -/
theorem splitWords_single (w : Str) (hne : w ≠ []) (hs : ∀ c ∈ w, isspace c = false) :
    splitWords w = [w] := by
  unfold splitWords
  rw [splitAux_of_no_space w [] hs]
  cases w with
  | nil => exact absurd rfl hne
  | cons a as => simp

/-! ## Sets, maps and monadic folds -/

theorem mem_ascending (s : Finset Str) (x : Str) : x ∈ ascending s ↔ x ∈ s := by
  rcases s with ⟨⟨l⟩, hl⟩
  show x ∈ List.insertionSort (· ≤ ·) l ↔ x ∈ l
  exact List.mem_insertionSort _

theorem termUrls_eq (index : Index) (term : Str) :
    termUrls index term = .ok ((index.lookup term).getD ∅) := by
  unfold termUrls mapCount mapAt
  cases h : Finmap.lookup term index <;> simp [pure, Except.pure]

/-! ## `gatherTokens` -/

theorem stopwordLoop_eq (l : List Str) (cur : Str) :
    stopwordLoop l cur = if cur ∈ l then [] else cur := by
  induction l generalizing cur with
  | nil => simp [stopwordLoop]
  | cons sw rest ih =>
    unfold stopwordLoop
    rw [ih]
    by_cases h : cur = sw
    · subst h
      simp
    · simp only [h, if_false, List.mem_cons, false_or]

/-- One word of the text: the token is added when it is neither empty nor a stop word. -/
theorem gatherStep_eq (stopwords tokens : Finset Str) (word : Str) :
    gatherStep stopwords tokens word =
      if word.dropWhile ispunct = [] then .error .outOfRange
      else .ok (if normalizeSpec word ≠ [] ∧ normalizeSpec word ∉ stopwords
        then insert (normalizeSpec word) tokens else tokens) := by
  unfold gatherStep
  rw [cleanToken_eq]
  by_cases h : word.dropWhile ispunct = []
  · simp [h, bind, Except.bind]
  · simp only [h, if_false, bind, Except.bind, stopwordLoop_eq, mem_ascending, pure, Except.pure]
    by_cases hs : stopwords = ∅
    · subst hs
      by_cases he : normalizeSpec word = [] <;> simp [he]
    · simp only [ne_eq, hs, not_false_eq_true, if_true]
      by_cases hm : normalizeSpec word ∈ stopwords
      · simp [hm]
      · by_cases he : normalizeSpec word = [] <;> simp [hm, he]

theorem gatherFold_ok (stopwords : Finset Str) (ws : List Str)
    (h : ∀ w ∈ ws, w.dropWhile ispunct ≠ []) (acc : Finset Str) :
    ws.foldlM (gatherStep stopwords) acc =
      .ok (acc ∪ ((ws.map normalizeSpec).toFinset).filter
        (fun t => t ≠ [] ∧ t ∉ stopwords)) := by
  induction ws generalizing acc with
  | nil => simp [pure, Except.pure]
  | cons w ws ih =>
    rw [List.foldlM_cons, gatherStep_eq, if_neg (h w (List.mem_cons_self _ _))]
    simp only [bind, Except.bind]
    rw [ih (fun x hx => h x (List.mem_cons_of_mem _ hx))]
    congr 1
    ext t
    by_cases hk : normalizeSpec w ≠ [] ∧ normalizeSpec w ∉ stopwords
    · simp only [hk, ne_eq, not_false_eq_true, and_self, if_true, Finset.mem_union,
        Finset.mem_insert, Finset.mem_filter, List.mem_toFinset, List.map_cons, List.mem_cons]
      constructor
      · rintro ((rfl | h1) | h1)
        · exact Or.inr ⟨Or.inl rfl, hk⟩
        · exact Or.inl h1
        · exact Or.inr ⟨Or.inr h1.1, h1.2⟩
      · rintro (h1 | ⟨rfl | h1, h2⟩)
        · exact Or.inl (Or.inr h1)
        · exact Or.inl (Or.inl rfl)
        · exact Or.inr ⟨h1, h2⟩
    · simp only [hk, if_false, Finset.mem_union, Finset.mem_filter, List.mem_toFinset,
        List.map_cons, List.mem_cons]
      constructor
      · rintro (h1 | h1)
        · exact Or.inl h1
        · exact Or.inr ⟨Or.inr h1.1, h1.2⟩
      · rintro (h1 | ⟨rfl | h1, h2⟩)
        · exact Or.inl h1
        · exact absurd h2 hk
        · exact Or.inr ⟨h1, h2⟩

theorem gatherFold_error (stopwords : Finset Str) (ws : List Str)
    (h : ¬ ∀ w ∈ ws, w.dropWhile ispunct ≠ []) (acc : Finset Str) :
    ws.foldlM (gatherStep stopwords) acc = .error .outOfRange := by
  induction ws generalizing acc with
  | nil => exact absurd (fun w hw => absurd hw (List.not_mem_nil w)) h
  | cons w ws ih =>
    rw [List.foldlM_cons, gatherStep_eq]
    by_cases hw : w.dropWhile ispunct = []
    · simp [hw, bind, Except.bind]
    · simp only [hw, if_false, bind, Except.bind]
      apply ih
      intro hall
      apply h
      intro x hx
      rcases List.mem_cons.mp hx with rfl | hx
      · exact hw
      · exact hall x hx

/-- On a text without an all-punctuation word, `gatherTokens` returns the surviving
tokens. -/
theorem gatherTokens_ok (text : Str) (stopwords : Finset Str) (h : NoPunctWord text) :
    gatherTokens text stopwords = .ok (survivingTokens text stopwords) := by
  unfold gatherTokens survivingTokens
  rw [gatherFold_ok stopwords _ h]
  simp

/-- On a text with an all-punctuation word, `gatherTokens` reads out of range. -/
theorem gatherTokens_error (text : Str) (stopwords : Finset Str) (h : ¬ NoPunctWord text) :
    gatherTokens text stopwords = .error .outOfRange :=
  gatherFold_error stopwords _ h ∅

/-- Every surviving token is well formed and free of whitespace. -/
theorem survivingTokens_clean (text : Str) (stopwords : Finset Str) (t : Str)
    (h : t ∈ survivingTokens text stopwords) :
    CleanToken t ∧ ∀ c ∈ t, isspace c = false := by
  unfold survivingTokens at h
  simp only [Finset.mem_filter, List.mem_toFinset, List.mem_map] at h
  obtain ⟨⟨w, hw, rfl⟩, hne, _⟩ := h
  exact ⟨normalizeSpec_clean w hne, normalizeSpec_no_space w (splitWords_words text w hw).2⟩

/-! ## `buildIndex` -/

/-- One token of a document: its entry becomes the old entry (or the empty set) with
the URL of the document added. -/
theorem indexToken_eq (url : Str) (u : Finset Str) (index : Index) (token : Str)
    (hu : u ⊆ {url}) :
    indexToken url (u, index) token =
      .ok (if (index.lookup token).isSome then u else {url},
        index.insert token (insert url ((index.lookup token).getD ∅))) := by
  unfold indexToken mapCount mapAt mapEmplace
  cases h : Finmap.lookup token index with
  | some old => simp [bind, Except.bind, pure, Except.pure]
  | none =>
    have e : insert url u = {url} := by
      apply Finset.Subset.antisymm
      · intro x hx
        rcases Finset.mem_insert.mp hx with rfl | hx
        · exact Finset.mem_singleton_self _
        · exact hu hx
      · intro x hx
        rw [Finset.mem_singleton.mp hx]
        exact Finset.mem_insert_self _ _
    simp [pure, Except.pure, e]

theorem indexFold_ok (url : Str) (l : List Str) :
    ∀ (u : Finset Str) (index : Index), u ⊆ {url} →
      ∃ u1 index1, l.foldlM (indexToken url) (u, index) = .ok (u1, index1) ∧
        ∀ t, index1.lookup t =
          if t ∈ l then some (insert url ((index.lookup t).getD ∅)) else index.lookup t := by
  induction l with
  | nil =>
    intro u index _
    exact ⟨u, index, rfl, fun t => by simp⟩
  | cons tok rest ih =>
    intro u index hu
    have hu1 : (if (index.lookup tok).isSome then u else {url}) ⊆ ({url} : Finset Str) := by
      split
      · exact hu
      · exact Finset.Subset.refl _
    obtain ⟨u1, index1, hfold, hlook⟩ :=
      ih _ (index.insert tok (insert url ((index.lookup tok).getD ∅))) hu1
    refine ⟨u1, index1, ?_, ?_⟩
    · rw [List.foldlM_cons, indexToken_eq url u index tok hu]
      simp only [bind, Except.bind]
      exact hfold
    · intro t
      rw [hlook t]
      by_cases ht : t = tok
      · subst ht
        simp only [Finmap.lookup_insert, Option.getD_some, List.mem_cons, true_or, if_true]
        split
        · simp
        · rfl
      · rw [Finmap.lookup_insert_of_ne _ ht]
        simp only [List.mem_cons, ht, false_or]

theorem buildStep_odd (stopwords : Finset Str) (st : BuildState) (row : Str)
    (h : st.curLine % 2 = 1) :
    buildStep stopwords st row =
      .ok { st with curLine := st.curLine + 1, curUrl := row, totalUrls := st.totalUrls + 1 } := by
  unfold buildStep
  rw [if_pos h]
  rfl

theorem buildStep_even_ok (stopwords : Finset Str) (st : BuildState) (row : Str)
    (h : st.curLine % 2 ≠ 1) (hrow : NoPunctWord row) :
    ∃ index1, buildStep stopwords st row =
        .ok { st with curLine := st.curLine + 1, index := index1 } ∧
      ∀ t, index1.lookup t =
        if t ∈ survivingTokens row stopwords
        then some (insert st.curUrl ((st.index.lookup t).getD ∅)) else st.index.lookup t := by
  obtain ⟨u1, index1, hfold, hlook⟩ :=
    indexFold_ok st.curUrl (ascending (survivingTokens row stopwords)) ∅ st.index
      (Finset.empty_subset _)
  refine ⟨index1, ?_, ?_⟩
  · unfold buildStep
    rw [if_neg h, gatherTokens_ok row stopwords hrow]
    simp only [bind, Except.bind]
    rw [hfold]
    rfl
  · intro t
    rw [hlook t]
    simp only [mem_ascending]

theorem buildStep_even_error (stopwords : Finset Str) (st : BuildState) (row : Str)
    (h : st.curLine % 2 ≠ 1) (hrow : ¬ NoPunctWord row) :
    buildStep stopwords st row = .error .outOfRange := by
  unfold buildStep
  rw [if_neg h, gatherTokens_error row stopwords hrow]
  rfl

/-- The rows of a corpus without all-punctuation words are all processed: every document
is counted and adds its identifier to the entry of each of its surviving tokens. -/
theorem buildRows_ok (stopwords : Finset Str) (corpus : List (Str × Str))
    (h : ∀ doc ∈ corpus, NoPunctWord doc.2) :
    ∀ st : BuildState, st.curLine % 2 = 1 →
      ∃ st1, (corpusRows corpus).foldlM (buildStep stopwords) st = .ok st1 ∧
        st1.totalUrls = st.totalUrls + corpus.length ∧
        (∀ t, (st1.index.lookup t).isSome = true ↔ ((st.index.lookup t).isSome = true ∨
            ∃ doc ∈ corpus, t ∈ survivingTokens doc.2 stopwords)) ∧
        (∀ t d, d ∈ (st1.index.lookup t).getD ∅ ↔ (d ∈ (st.index.lookup t).getD ∅ ∨
            ∃ doc ∈ corpus, doc.1 = d ∧ t ∈ survivingTokens doc.2 stopwords)) := by
  induction corpus with
  | nil =>
    intro st _
    exact ⟨st, rfl, by simp, by simp, by simp⟩
  | cons doc ds ih =>
    intro st hodd
    have hdoc : NoPunctWord doc.2 := h doc (List.mem_cons_self _ _)
    have heven : (st.curLine + 1) % 2 ≠ 1 := by omega
    obtain ⟨index1, hstep, hlook⟩ := buildStep_even_ok stopwords
      { st with curLine := st.curLine + 1, curUrl := doc.1, totalUrls := st.totalUrls + 1 }
      doc.2 heven hdoc
    obtain ⟨st1, hfold, hcount, hkeys, hmem⟩ :=
      ih (fun d hd => h d (List.mem_cons_of_mem _ hd))
        { st with curLine := st.curLine + 1 + 1, curUrl := doc.1,
                  totalUrls := st.totalUrls + 1, index := index1 } (by simp only; omega)
    refine ⟨st1, ?_, ?_, ?_, ?_⟩
    · simp only [corpusRows, List.foldlM_cons]
      rw [buildStep_odd stopwords st doc.1 hodd]
      simp only [bind, Except.bind]
      rw [hstep]
      exact hfold
    · rw [hcount]
      simp only [List.length_cons]
      omega
    · intro t
      rw [hkeys t]
      simp only [hlook t, List.mem_cons, exists_eq_or_imp]
      by_cases ht : t ∈ survivingTokens doc.2 stopwords
      · simp [ht]
      · simp [ht]
    · intro t d
      rw [hmem t d]
      simp only [hlook t, List.mem_cons, exists_eq_or_imp]
      by_cases ht : t ∈ survivingTokens doc.2 stopwords
      · simp only [ht, if_true, Option.getD_some, Finset.mem_insert, and_true]
        constructor
        · rintro ((rfl | h1) | h1)
          · exact Or.inr (Or.inl rfl)
          · exact Or.inl h1
          · exact Or.inr (Or.inr h1)
        · rintro (h1 | h1 | h1)
          · exact Or.inl (Or.inr h1)
          · exact Or.inl (Or.inl h1.symm)
          · exact Or.inr h1
      · simp [ht]

/-- As soon as one text of the corpus has an all-punctuation word, the run ends in an
out-of-range read. -/
theorem buildRows_error (stopwords : Finset Str) (corpus : List (Str × Str))
    (h : ¬ ∀ doc ∈ corpus, NoPunctWord doc.2) :
    ∀ st : BuildState, st.curLine % 2 = 1 →
      (corpusRows corpus).foldlM (buildStep stopwords) st = .error .outOfRange := by
  induction corpus with
  | nil => exact absurd (fun d hd => absurd hd (List.not_mem_nil d)) h
  | cons doc ds ih =>
    intro st hodd
    have heven : (st.curLine + 1) % 2 ≠ 1 := by omega
    simp only [corpusRows, List.foldlM_cons]
    rw [buildStep_odd stopwords st doc.1 hodd]
    simp only [bind, Except.bind]
    by_cases hdoc : NoPunctWord doc.2
    · obtain ⟨index1, hstep, _⟩ := buildStep_even_ok stopwords
        { st with curLine := st.curLine + 1, curUrl := doc.1, totalUrls := st.totalUrls + 1 }
        doc.2 heven hdoc
      rw [hstep]
      simp only
      apply ih
      · intro hall
        apply h
        intro d hd
        rcases List.mem_cons.mp hd with rfl | hd
        · exact hdoc
        · exact hall d hd
      · simp only
        omega
    · rw [buildStep_even_error stopwords _ doc.2 heven hdoc]

/-- A corpus without all-punctuation words is indexed completely: the count is the
number of documents, the keys are the surviving tokens, and the set of a key holds the
identifiers of the documents in which the token survives. -/
theorem buildIndex_ok (stopwords : Finset Str) (corpus : List (Str × Str))
    (h : ∀ doc ∈ corpus, NoPunctWord doc.2) :
    ∃ index, buildIndex (corpusRows corpus) stopwords ∅ = .ok (corpus.length, index) ∧
      (∀ t, (index.lookup t).isSome = true ↔
        ∃ doc ∈ corpus, t ∈ survivingTokens doc.2 stopwords) ∧
      (∀ t d, d ∈ (index.lookup t).getD ∅ ↔
        ∃ doc ∈ corpus, doc.1 = d ∧ t ∈ survivingTokens doc.2 stopwords) := by
  obtain ⟨st1, hfold, hcount, hkeys, hmem⟩ := buildRows_ok stopwords corpus h
    { curLine := 1, curUrl := [], totalUrls := 0, index := ∅ } rfl
  refine ⟨st1.index, ?_, ?_, ?_⟩
  · unfold buildIndex
    rw [hfold]
    simp only [bind, Except.bind, pure, Except.pure, hcount, Nat.zero_add]
  · intro t
    rw [hkeys t]
    simp
  · intro t d
    rw [hmem t d]
    simp

theorem buildIndex_error (stopwords : Finset Str) (corpus : List (Str × Str))
    (h : ¬ ∀ doc ∈ corpus, NoPunctWord doc.2) :
    buildIndex (corpusRows corpus) stopwords ∅ = .error .outOfRange := by
  unfold buildIndex
  rw [buildRows_error stopwords corpus h
    { curLine := 1, curUrl := [], totalUrls := 0, index := ∅ } rfl]
  rfl

/-- Every key of a built index is a surviving token of some document. -/
theorem buildIndex_key (stopwords : Finset Str) (corpus : List (Str × Str)) (n : Nat)
    (index : Index) (h : buildIndex (corpusRows corpus) stopwords ∅ = .ok (n, index))
    (t : Str) (ht : (index.lookup t).isSome = true) :
    ∃ doc ∈ corpus, t ∈ survivingTokens doc.2 stopwords := by
  by_cases hc : ∀ doc ∈ corpus, NoPunctWord doc.2
  · obtain ⟨index1, hb, hkeys, _⟩ := buildIndex_ok stopwords corpus hc
    rw [hb] at h
    have e : index1 = index := (Prod.mk.inj (Except.ok.inj h)).2
    rw [← e] at ht
    exact (hkeys t).mp ht
  · rw [buildIndex_error stopwords corpus hc] at h
    exact Except.noConfusion h

/-! ## `findQueryMatches` -/

/-- One query term: an out-of-range read for an all-punctuation term, the step of the
specification otherwise. -/
theorem queryStep_eq (index : Index) (R : Finset Str) (term : Str) :
    queryStep index R term =
      if term.dropWhile ispunct = [] then .error .outOfRange
      else .ok (specStep index R term) := by
  cases term with
  | nil =>
    unfold queryStep
    rw [charAt_zero_nil]
    simp only [bind, Except.bind, cleanToken_eq]
    rfl
  | cons c cs =>
    unfold queryStep
    rw [charAt_zero_cons]
    simp only [bind, Except.bind, cleanToken_eq]
    by_cases h : List.dropWhile ispunct (c :: cs) = []
    · simp only [h, if_true]
      split
      · rfl
      · split <;> rfl
    · simp only [h, if_false, termUrls_eq, pure, Except.pure, Finset.empty_union]
      unfold specStep termSet
      simp only [List.head?_cons, Option.some.injEq]
      split
      · rfl
      · split <;> rfl

theorem queryFold_ok (index : Index) (ws : List Str)
    (h : ∀ w ∈ ws, w.dropWhile ispunct ≠ []) (R : Finset Str) :
    ws.foldlM (queryStep index) R = .ok (ws.foldl (specStep index) R) := by
  induction ws generalizing R with
  | nil => rfl
  | cons w ws ih =>
    rw [List.foldlM_cons, queryStep_eq, if_neg (h w (List.mem_cons_self _ _))]
    simp only [bind, Except.bind, List.foldl_cons]
    exact ih (fun x hx => h x (List.mem_cons_of_mem _ hx)) _

/-- A query without an all-punctuation term is answered by the left fold of its terms. -/
theorem findQueryMatches_ok (index : Index) (sentence : Str) (h : NoPunctWord sentence) :
    findQueryMatches index sentence = .ok (foldSpec index sentence) :=
  queryFold_ok index _ h ∅

/-- A query of one word. -/
theorem findQueryMatches_word (index : Index) (w : Str) (hne : w ≠ [])
    (hspace : ∀ c ∈ w, isspace c = false) :
    findQueryMatches index w = queryStep index ∅ w := by
  unfold findQueryMatches
  rw [splitWords_single w hne hspace, List.foldlM_cons]
  cases queryStep index ∅ w <;> rfl

/-- A query of one word without sigil, whose normalised form is a key. -/
theorem findQueryMatches_plain (index : Index) (w t : Str) (S : Finset Str)
    (hspace : ∀ c ∈ w, isspace c = false)
    (hplus : w.head? ≠ some '+') (hminus : w.head? ≠ some '-')
    (hclean : cleanToken w = .ok t) (hkey : index.lookup t = some S) :
    findQueryMatches index w = .ok S := by
  obtain ⟨hdrop, ht⟩ := (cleanToken_ok_iff w t).mp hclean
  have hne : w ≠ [] := by
    intro e
    rw [e] at hdrop
    exact hdrop rfl
  rw [findQueryMatches_word index w hne hspace, queryStep_eq, if_neg hdrop]
  unfold specStep termSet
  rw [if_neg hplus, if_neg hminus, ← ht, hkey]
  simp

/-- A leading `+` is stripped with the rest of the leading punctuation. -/
theorem cleanToken_plus (w : Str) : cleanToken ('+' :: w) = cleanToken w := by
  have hp : ispunct '+' = true := by decide
  have e : ('+' :: w).dropWhile ispunct = w.dropWhile ispunct := by
    rw [List.dropWhile_cons, if_pos hp]
  rw [cleanToken_eq, cleanToken_eq]
  unfold normalizeSpec stripPunct
  rw [e]

/-- The build of the concrete scenario of the specification. -/
theorem buildIndex_scenario :
    buildIndex (corpusRows scenarioCorpus) ∅ ∅ = .ok (2, scenarioIndex) := by
  have h : buildIndex (corpusRows scenarioCorpus) ∅ ∅ = .ok (2,
      ((Finmap.singleton "hello".toList {"d2".toList, "d1".toList}).insert
        "world".toList {"d1".toList}).insert "there".toList {"d2".toList}) := by decide
  rw [h]
  unfold scenarioIndex
  rw [Finset.pair_comm]

/-! ## Lemmas for the stop-word filter, the frame of the query and the lookup miss -/

theorem cleanWords_ok (ws : List Str) (h : ∀ w ∈ ws, w.dropWhile ispunct ≠ []) :
    cleanWords ws = .ok (ws.map normalizeSpec) := by
  induction ws with
  | nil => rfl
  | cons w ws ih =>
    unfold cleanWords
    rw [cleanToken_eq, if_neg (h w (List.mem_cons_self _ _)),
      ih (fun x hx => h x (List.mem_cons_of_mem _ hx))]
    rfl

theorem cleanWords_error (ws : List Str) (h : ¬ ∀ w ∈ ws, w.dropWhile ispunct ≠ []) :
    cleanWords ws = .error .outOfRange := by
  induction ws with
  | nil => exact absurd (fun w hw => absurd hw (List.not_mem_nil w)) h
  | cons w ws ih =>
    unfold cleanWords
    rw [cleanToken_eq]
    by_cases hw : w.dropWhile ispunct = []
    · rw [if_pos hw]
      rfl
    · rw [if_neg hw, ih]
      · rfl
      · intro hall
        apply h
        intro x hx
        rcases List.mem_cons.mp hx with rfl | hx
        · exact hw
        · exact hall x hx

/-- The linear stop-word loop and the set-membership test give the same outcome on every
text, the out-of-range read included. -/
theorem gatherTokens_eq_ref (text : Str) (stopwords : Finset Str) :
    gatherTokens text stopwords = gatherTokensRef text stopwords := by
  unfold gatherTokensRef
  by_cases h : NoPunctWord text
  · rw [gatherTokens_ok text stopwords h, cleanWords_ok _ h]
    rfl
  · rw [gatherTokens_error text stopwords h, cleanWords_error _ h]
    rfl

/-- A returned token set is the set of surviving tokens. -/
theorem gatherTokens_returned (text : Str) (stopwords T : Finset Str)
    (h : gatherTokens text stopwords = .ok T) : T = survivingTokens text stopwords := by
  by_cases hp : NoPunctWord text
  · rw [gatherTokens_ok text stopwords hp] at h
    exact (Except.ok.inj h).symm
  · rw [gatherTokens_error text stopwords hp] at h
    exact Except.noConfusion h

theorem survivingTokens_not_stopword (text : Str) (stopwords : Finset Str) (t : Str)
    (h : t ∈ survivingTokens text stopwords) : t ∉ stopwords := by
  unfold survivingTokens at h
  exact (Finset.mem_filter.mp h).2.2

/-- A punctuation character in front of a word does not change what `cleanToken` makes
of it. -/
theorem cleanToken_punct_cons (c : Char) (w : Str) (hc : ispunct c = true) :
    cleanToken (c :: w) = cleanToken w := by
  have e : (c :: w).dropWhile ispunct = w.dropWhile ispunct := by
    rw [List.dropWhile_cons, if_pos hc]
  rw [cleanToken_eq, cleanToken_eq]
  unfold normalizeSpec stripPunct
  rw [e]

theorem termUrlsRef_eq (index : Index) (term : Str) :
    termUrlsRef index term = (index, termUrls index term) := by
  unfold termUrlsRef termUrls mapCountRef mapAtRef
  simp only
  split <;> rfl

theorem lookupRef_fst (index : Index) (term : Str) : (lookupRef index term).1 = index := by
  unfold lookupRef
  cases cleanToken term with
  | error e => rfl
  | ok t =>
    simp only
    rw [termUrlsRef_eq]

theorem lookupRef_snd (index : Index) (term : Str) :
    (lookupRef index term).2 = (cleanToken term >>= termUrls index) := by
  unfold lookupRef
  cases cleanToken term with
  | error e => rfl
  | ok t =>
    simp only
    rw [termUrlsRef_eq]
    rfl

/-- One iteration with the map threaded through: the map is handed back as it was, and
the result is that of `queryStep`. -/
theorem queryStepRef_eq (index : Index) (result : Finset Str) (term : Str) :
    queryStepRef index result term = (index, queryStep index result term) := by
  unfold queryStepRef queryStep
  cases hc : charAt term 0 with
  | error e => rfl
  | ok c =>
    simp only [lookupRef_fst, lookupRef_snd, bind, Except.bind]
    cases hct : cleanToken term with
    | error e => split <;> [rfl; (split <;> rfl)]
    | ok t =>
      simp only
      cases htu : termUrls index t with
      | error e => split <;> [rfl; (split <;> rfl)]
      | ok S => split <;> [rfl; (split <;> rfl)]

theorem queryLoopRef_eq (ws : List Str) (index : Index) (result : Finset Str) :
    queryLoopRef ws index result = (index, ws.foldlM (queryStep index) result) := by
  induction ws generalizing result with
  | nil => rfl
  | cons w ws ih =>
    unfold queryLoopRef
    rw [List.foldlM_cons]
    simp only [queryStepRef_eq]
    cases queryStep index result w with
    | error e => rfl
    | ok r => exact ih r

/-- A term whose normalised form is not a key: no lookup fails, and the step treats the
missing set as empty. -/
theorem queryStep_miss (index : Index) (R : Finset Str) (term t : Str)
    (hclean : cleanToken term = .ok t) (hmiss : index.lookup t = none) :
    queryStep index R term = .ok (if term.head? = some '+' then ∅ else R) := by
  obtain ⟨hdrop, ht⟩ := (cleanToken_ok_iff term t).mp hclean
  rw [queryStep_eq, if_neg hdrop]
  unfold specStep termSet
  rw [← ht, hmiss]
  by_cases hp : term.head? = some '+'
  · simp [hp]
  · by_cases hm : term.head? = some '-'
    · simp [hm]
    · simp [hp, hm]

/-! ## Lemmas for the origin of the query results -/

/-- C3.  For every word that keeps at least one character once its leading punctuation
is removed, `cleanToken` returns the word without its leading and then its trailing
punctuation, letters lowercased, when a letter remains, and the empty string when
none does; `"2024"` gives `""`, `"Hello!"` gives `"hello"`, `"--world--"` gives
`"world"`. -/
theorem cleanToken_normalises :
    (∀ w : Str, w.dropWhile ispunct ≠ [] →
      cleanToken w = .ok
        (if ((w.dropWhile ispunct).rdropWhile ispunct).any isalpha
         then ((w.dropWhile ispunct).rdropWhile ispunct).map lowerAlpha else [])) ∧
    cleanToken "2024".toList = .ok [] ∧
    cleanToken "Hello!".toList = .ok "hello".toList ∧
    cleanToken "--world--".toList = .ok "world".toList := by
  refine ⟨?_, by decide, by decide, by decide⟩
  intro w hw
  rw [cleanToken_eq, if_neg hw]
  rfl

theorem cleanToken_normalises_witness :
    "a.b!".toList.dropWhile ispunct ≠ [] ∧ cleanToken "a.b!".toList = .ok "a.b".toList :=
  ⟨by decide, (cleanToken_normalises.1 "a.b!".toList (by decide)).trans (by decide)⟩

/-- C4 (fails on the code).  For every string made of punctuation characters only, the
empty string included, the second boundary check of `cleanToken` is evaluated on the
empty string left by the first loop, at index `2^64 - 1`, which is out of range; no
token is returned. -/
theorem cleanToken_punct_only_outOfRange (s : Str) (h : ∀ c ∈ s, ispunct c = true) :
    eraseLeading (s.length + 1) s = .ok [] ∧
    sizeMinusOne [] = 2 ^ 64 - 1 ∧
    charAt [] (sizeMinusOne []) = .error .outOfRange ∧
    cleanToken s = .error .outOfRange := by
  refine ⟨?_, rfl, charAt_last_nil, cleanToken_of_allPunct s h⟩
  rw [eraseLeading_eq _ s (Nat.lt_succ_self _), List.dropWhile_eq_nil_iff.mpr h]

theorem cleanToken_punct_only_outOfRange_witness :
    (∀ c ∈ "!!!".toList, ispunct c = true) ∧ cleanToken "!!!".toList = .error .outOfRange :=
  ⟨by decide, (cleanToken_punct_only_outOfRange "!!!".toList (by decide)).2.2.2⟩

/-- C5.  Round trip: in an index built by `buildIndex` from the empty map, the query
made of a key alone returns exactly the set stored for that key. -/
theorem roundtrip_key_query (corpus : List (Str × Str)) (stopwords : Finset Str) (n : Nat)
    (index : Index) (t : Str) (S : Finset Str)
    (hbuild : buildIndex (corpusRows corpus) stopwords ∅ = .ok (n, index))
    (hkey : index.lookup t = some S) :
    findQueryMatches index t = .ok S := by
  obtain ⟨doc, _, hdoc⟩ := buildIndex_key stopwords corpus n index hbuild t (by rw [hkey]; rfl)
  obtain ⟨hclean, hspace⟩ := survivingTokens_clean doc.2 stopwords t hdoc
  have hp : ispunct '+' = true := by decide
  have hm : ispunct '-' = true := by decide
  refine findQueryMatches_plain index t t S hspace ?_ ?_ (cleanToken_of_clean t hclean) hkey
  · intro e
    have := hclean.2.2.1 '+' e
    rw [hp] at this
    exact Bool.noConfusion this
  · intro e
    have := hclean.2.2.1 '-' e
    rw [hm] at this
    exact Bool.noConfusion this

theorem roundtrip_key_query_witness :
    buildIndex (corpusRows [("d1".toList, "Hello World".toList)]) ∅ ∅
      = .ok (1, (Finmap.singleton "hello".toList {"d1".toList}).insert
          "world".toList {"d1".toList}) ∧
    ((Finmap.singleton "hello".toList {"d1".toList}).insert
          "world".toList {"d1".toList} : Index).lookup "hello".toList = some {"d1".toList} ∧
    findQueryMatches ((Finmap.singleton "hello".toList {"d1".toList}).insert
          "world".toList {"d1".toList}) "hello".toList = .ok {"d1".toList} :=
  ⟨by decide, by decide,
    roundtrip_key_query [("d1".toList, "Hello World".toList)] ∅ 1
      ((Finmap.singleton "hello".toList {"d1".toList}).insert "world".toList {"d1".toList})
      "hello".toList {"d1".toList} (by decide) (by decide)⟩

/-- C7.  Every key of an index built by `buildIndex` from the empty map is a non-empty
string with at least one alphabetic character, whose first character is not
punctuation and whose last character is not punctuation. -/
theorem built_keys_wellformed (corpus : List (Str × Str)) (stopwords : Finset Str) (n : Nat)
    (index : Index) (t : Str)
    (hbuild : buildIndex (corpusRows corpus) stopwords ∅ = .ok (n, index))
    (hkey : t ∈ index) :
    t ≠ [] ∧ (∃ c ∈ t, isalpha c = true) ∧
      (∀ c, t.head? = some c → ispunct c = false) ∧
      (∀ c, t.getLast? = some c → ispunct c = false) := by
  obtain ⟨S, hS⟩ := Finmap.mem_iff.mp hkey
  obtain ⟨doc, _, hdoc⟩ := buildIndex_key stopwords corpus n index hbuild t (by rw [hS]; rfl)
  obtain ⟨hclean, _⟩ := survivingTokens_clean doc.2 stopwords t hdoc
  exact ⟨hclean.1, hclean.2.1, hclean.2.2.1, hclean.2.2.2.1⟩

theorem built_keys_wellformed_witness :
    buildIndex (corpusRows [("d1".toList, "(Hello), World!".toList)]) ∅ ∅
      = .ok (1, (Finmap.singleton "hello".toList {"d1".toList}).insert
          "world".toList {"d1".toList}) ∧
    "world".toList ∈ ((Finmap.singleton "hello".toList {"d1".toList}).insert
          "world".toList {"d1".toList} : Index) ∧
    "world".toList ≠ [] :=
  ⟨by decide, by decide,
    (built_keys_wellformed [("d1".toList, "(Hello), World!".toList)] ∅ 1
      ((Finmap.singleton "hello".toList {"d1".toList}).insert "world".toList {"d1".toList})
      "world".toList (by decide) (by decide)).1⟩

/-- C8 (as stated, fails).  In `fruitIndex`, where `apple` has the set `{d1}` and `banana`
the set `{d2}`, the query `+apple -banana` does not return `{d1} - {d2}`. -/
theorem plus_apple_minus_banana_counterexample :
    fruitIndex.lookup "apple".toList = some {"d1".toList} ∧
    fruitIndex.lookup "banana".toList = some {"d2".toList} ∧
    findQueryMatches fruitIndex "+apple -banana".toList
      ≠ .ok (({"d1".toList} : Finset Str) \ {"d2".toList}) := by
  decide

/-- C8 (amended).  For every index in which both `apple` and `banana` are keys, the
query `+apple -banana` returns `(∅ ∩ apple_set) - banana_set`, which is the empty set:
the first term is intersected with the empty start set, as its `+` sigil says, and
the second term is then excluded. -/
theorem plus_apple_minus_banana (index : Index) (appleSet bananaSet : Finset Str)
    (happle : index.lookup "apple".toList = some appleSet)
    (hbanana : index.lookup "banana".toList = some bananaSet) :
    findQueryMatches index "+apple -banana".toList = .ok ((∅ ∩ appleSet) \ bananaSet) ∧
    findQueryMatches index "+apple -banana".toList = .ok ∅ := by
  have hq : NoPunctWord "+apple -banana".toList := by
    unfold NoPunctWord
    decide
  have hw : splitWords "+apple -banana".toList = ["+apple".toList, "-banana".toList] := by
    decide
  have ha : normalizeSpec "+apple".toList = "apple".toList := by decide
  have hb : normalizeSpec "-banana".toList = "banana".toList := by decide
  have e : foldSpec index "+apple -banana".toList = (∅ ∩ appleSet) \ bananaSet := by
    unfold foldSpec
    rw [hw]
    simp only [List.foldl_cons, List.foldl_nil]
    have h1 : specStep index ∅ "+apple".toList = ∅ ∩ appleSet := by
      unfold specStep termSet
      rw [ha, happle]
      rfl
    rw [h1]
    unfold specStep termSet
    rw [hb, hbanana]
    rfl
  rw [findQueryMatches_ok index _ hq, e]
  simp

theorem plus_apple_minus_banana_witness :
    fruitIndex.lookup "apple".toList = some {"d1".toList} ∧
    fruitIndex.lookup "banana".toList = some {"d2".toList} ∧
    findQueryMatches fruitIndex "+apple -banana".toList = .ok ∅ :=
  ⟨by decide, by decide,
    (plus_apple_minus_banana fruitIndex {"d1".toList} {"d2".toList}
      (by decide) (by decide)).2⟩

/-- C9.  For every index and every single query word `w` (no whitespace, first character
neither `+` nor `-`) whose normalised form `cleanToken(w)` is a key of the index,
`findQueryMatches(index, w)` is the set stored for `cleanToken(w)`. -/
theorem plain_word_query (index : Index) (w t : Str) (S : Finset Str)
    (hspace : ∀ c ∈ w, isspace c = false)
    (hplus : w.head? ≠ some '+') (hminus : w.head? ≠ some '-')
    (hclean : cleanToken w = .ok t) (hkey : index.lookup t = some S) :
    findQueryMatches index w = .ok S :=
  findQueryMatches_plain index w t S hspace hplus hminus hclean hkey

theorem plain_word_query_witness :
    (∀ c ∈ "Apple!".toList, isspace c = false) ∧
    cleanToken "Apple!".toList = .ok "apple".toList ∧
    fruitIndex.lookup "apple".toList = some {"d1".toList} ∧
    findQueryMatches fruitIndex "Apple!".toList = .ok {"d1".toList} :=
  ⟨by decide, by decide, by decide,
    plain_word_query fruitIndex "Apple!".toList "apple".toList {"d1".toList}
      (by decide) (by decide) (by decide) (by decide) (by decide)⟩

/-- C10.  For every index and every single query word `w` (no whitespace, first character
neither `+` nor `-`) whose normalised form is a key with a non-empty set, the query
`+w` returns the empty set, because it intersects with the empty start set, and so
differs from the query `w`, which returns the stored set. -/
theorem plus_word_query_differs (index : Index) (w t : Str) (S : Finset Str)
    (hspace : ∀ c ∈ w, isspace c = false)
    (hplus : w.head? ≠ some '+') (hminus : w.head? ≠ some '-')
    (hclean : cleanToken w = .ok t) (hkey : index.lookup t = some S) (hS : S ≠ ∅) :
    findQueryMatches index ('+' :: w) = .ok ∅ ∧
    findQueryMatches index w = .ok S ∧
    findQueryMatches index ('+' :: w) ≠ findQueryMatches index w := by
  have hplain := findQueryMatches_plain index w t S hspace hplus hminus hclean hkey
  have hsp : ∀ c ∈ '+' :: w, isspace c = false := by
    intro c hc
    rcases List.mem_cons.mp hc with rfl | hc
    · decide
    · exact hspace c hc
  have hq : findQueryMatches index ('+' :: w) = .ok ∅ := by
    rw [findQueryMatches_word index ('+' :: w) (List.cons_ne_nil _ _) hsp, queryStep_eq]
    have hc := (cleanToken_ok_iff ('+' :: w) t).mp ((cleanToken_plus w).trans hclean)
    rw [if_neg hc.1]
    unfold specStep
    simp
  refine ⟨hq, hplain, ?_⟩
  rw [hq, hplain]
  intro e
  exact hS (Except.ok.inj e).symm

theorem plus_word_query_differs_witness :
    fruitIndex.lookup "apple".toList = some {"d1".toList} ∧
    findQueryMatches fruitIndex "+apple".toList = .ok ∅ ∧
    findQueryMatches fruitIndex "apple".toList = .ok {"d1".toList} :=
  ⟨by decide,
    (plus_word_query_differs fruitIndex "apple".toList "apple".toList {"d1".toList}
      (by decide) (by decide) (by decide) (by decide) (by decide) (by decide)).1,
    (plus_word_query_differs fruitIndex "apple".toList "apple".toList {"d1".toList}
      (by decide) (by decide) (by decide) (by decide) (by decide) (by decide)).2.1⟩

/-- C11.  Stop-word exclusion: no member of the stop-word set is a key of an index built
by `buildIndex` from the empty map, `gatherTokens` never returns a token that is in
the stop-word set, and with the stop words `the` and `a` the text `the cat and a dog`
yields exactly the tokens `cat`, `and`, `dog`. -/
theorem stopwords_excluded :
    (∀ (corpus : List (Str × Str)) (stopwords : Finset Str) (n : Nat) (index : Index)
        (t : Str), buildIndex (corpusRows corpus) stopwords ∅ = .ok (n, index) →
        t ∈ stopwords → t ∉ index) ∧
    (∀ (text : Str) (stopwords T : Finset Str) (t : Str),
        gatherTokens text stopwords = .ok T → t ∈ stopwords → t ∉ T) ∧
    gatherTokens "the cat and a dog".toList {"the".toList, "a".toList}
      = .ok {"cat".toList, "and".toList, "dog".toList} := by
  refine ⟨?_, ?_, by decide⟩
  · intro corpus stopwords n index t hbuild hstop hkey
    obtain ⟨S, hS⟩ := Finmap.mem_iff.mp hkey
    obtain ⟨doc, _, hdoc⟩ :=
      buildIndex_key stopwords corpus n index hbuild t (by rw [hS]; rfl)
    exact survivingTokens_not_stopword doc.2 stopwords t hdoc hstop
  · intro text stopwords T t hT hstop ht
    rw [gatherTokens_returned text stopwords T hT] at ht
    exact survivingTokens_not_stopword text stopwords t ht hstop

theorem stopwords_excluded_witness :
    buildIndex (corpusRows [("d1".toList, "The cat".toList)]) {"the".toList} ∅
      = .ok (1, Finmap.singleton "cat".toList {"d1".toList}) ∧
    "the".toList ∈ ({"the".toList} : Finset Str) ∧
    "the".toList ∉ (Finmap.singleton "cat".toList {"d1".toList} : Index) :=
  ⟨by decide, by decide,
    stopwords_excluded.1 [("d1".toList, "The cat".toList)] {"the".toList} 1
      (Finmap.singleton "cat".toList {"d1".toList}) "the".toList (by decide) (by decide)⟩

/-- C12 (fails on the code).  For the one stop-word line `2024`, whose normalised form is
the empty token, `getStopWords` returns the set whose only member is the empty
string: the loop inserts every result of `cleanToken`, without the emptiness test
that `gatherTokens` makes before its insertion. -/
theorem getStopWords_digits_line :
    cleanToken "2024".toList = .ok [] ∧
    getStopWords ["2024".toList] = .ok {[]} ∧
    getStopWords ["the".toList, "2024".toList] = .ok {"the".toList, []} ∧
    gatherTokens "2024".toList ∅ = .ok ∅ := by
  decide

/-- C14.  For a raw query term that begins with `+` or `-`, `cleanToken` of the whole
term, which is what `findQueryMatches` looks up, is `cleanToken` of the term without
that first character; so each sigil branch of the loop body is the lookup of the
normalised remainder, combined by intersection for `+` and by difference for `-`. -/
theorem sigil_stripped_by_cleanToken :
    (∀ rest : Str, cleanToken ('+' :: rest) = cleanToken rest) ∧
    (∀ rest : Str, cleanToken ('-' :: rest) = cleanToken rest) ∧
    (∀ (index : Index) (R : Finset Str) (rest : Str),
      queryStep index R ('+' :: rest) =
        (cleanToken rest >>= fun t => termUrls index t >>= fun S => pure (R ∩ S))) ∧
    (∀ (index : Index) (R : Finset Str) (rest : Str),
      queryStep index R ('-' :: rest) =
        (cleanToken rest >>= fun t => termUrls index t >>= fun S => pure (R \ S))) ∧
    cleanToken "+Apple!".toList = .ok "apple".toList ∧
    cleanToken "Apple!".toList = .ok "apple".toList := by
  have hp : ispunct '+' = true := by decide
  have hm : ispunct '-' = true := by decide
  refine ⟨fun rest => cleanToken_punct_cons '+' rest hp,
    fun rest => cleanToken_punct_cons '-' rest hm, ?_, ?_, by decide, by decide⟩
  · intro index R rest
    unfold queryStep
    rw [charAt_zero_cons, cleanToken_punct_cons '+' rest hp]
    simp only [bind, Except.bind, if_true]
    cases cleanToken rest with
    | error e => rfl
    | ok t =>
      simp only
      cases termUrls index t with
      | error e => rfl
      | ok S => simp [pure, Except.pure]
  · intro index R rest
    unfold queryStep
    rw [charAt_zero_cons, cleanToken_punct_cons '-' rest hm]
    have hne : ¬ ('-' = '+') := by decide
    simp only [bind, Except.bind, hne, if_false, if_true]
    cases cleanToken rest with
    | error e => rfl
    | ok t =>
      simp only
      cases termUrls index t with
      | error e => rfl
      | ok S => simp [pure, Except.pure]

/-- C15.  For every index and every query string, the map that `findQueryMatches`
receives by reference is the same after the call: same keys, same stored sets, and
no entry for a term that was not a key.  This holds on every path, the one that
ends in an out-of-range read of `cleanToken` included. -/
theorem findQueryMatches_index_unchanged (index : Index) (sentence : Str) :
    (findQueryMatchesRef index sentence).1 = index ∧
    (findQueryMatchesRef index sentence).2 = findQueryMatches index sentence ∧
    (∀ key, (findQueryMatchesRef index sentence).1.lookup key = index.lookup key) ∧
    (∀ key, key ∉ index → key ∉ (findQueryMatchesRef index sentence).1) := by
  have e : findQueryMatchesRef index sentence = (index, findQueryMatches index sentence) :=
    queryLoopRef_eq (splitWords sentence) index ∅
  rw [e]
  exact ⟨rfl, rfl, fun _ => rfl, fun _ h => h⟩

theorem findQueryMatches_index_unchanged_witness :
    "cherry".toList ∉ fruitIndex ∧
    "cherry".toList ∉ (findQueryMatchesRef fruitIndex "apple +cherry".toList).1 :=
  ⟨by decide,
    (findQueryMatches_index_unchanged fruitIndex "apple +cherry".toList).2.2.2
      "cherry".toList (by decide)⟩

/-- C16.  Concrete scenario: the corpus `[("d1","Hello World"), ("d2","hello there")]`
without stop words is indexed as `hello ↦ {d1, d2}`, `world ↦ {d1}`, `there ↦ {d2}`,
and on that index the query `hello` returns `{d1, d2}`, `hello +world` returns
`{d1}` and `hello -there` returns `{d1}`. -/
theorem scenario_index_and_queries :
    buildIndex (corpusRows
        [("d1".toList, "Hello World".toList), ("d2".toList, "hello there".toList)]) ∅ ∅
      = .ok (2, ((Finmap.singleton "hello".toList {"d1".toList, "d2".toList}).insert
          "world".toList {"d1".toList}).insert "there".toList {"d2".toList}) ∧
    findQueryMatches scenarioIndex "hello".toList = .ok {"d1".toList, "d2".toList} ∧
    findQueryMatches scenarioIndex "hello +world".toList = .ok {"d1".toList} ∧
    findQueryMatches scenarioIndex "hello -there".toList = .ok {"d1".toList} :=
  ⟨buildIndex_scenario, by decide, by decide, by decide⟩

/-- C17.  For every index, `findQueryMatches(index, "")` returns the empty set. -/
theorem empty_query (index : Index) : findQueryMatches index "".toList = .ok ∅ := by
  rfl

/-- C18.  On every text and every stop-word set, `gatherTokens`, with its linear
comparison loop over the stop words guarded by the non-emptiness test, has the same
outcome as the reference with a plain set-membership test; with the empty stop-word
set the filter does nothing and the result is the set of the non-empty normalised
words. -/
theorem gatherTokens_refines_membership :
    (∀ (text : Str) (stopwords : Finset Str),
      gatherTokens text stopwords = gatherTokensRef text stopwords) ∧
    (∀ text : Str, gatherTokens text ∅ =
      (cleanWords (splitWords text)).map (fun ts => ts.toFinset.filter (fun t => t ≠ []))) ∧
    gatherTokensRef "the cat and a dog".toList {"the".toList, "a".toList}
      = .ok {"cat".toList, "and".toList, "dog".toList} ∧
    gatherTokens "The cat, the DOG!".toList ∅
      = .ok {"the".toList, "cat".toList, "dog".toList} := by
  refine ⟨gatherTokens_eq_ref, ?_, by decide, by decide⟩
  intro text
  rw [gatherTokens_eq_ref]
  unfold gatherTokensRef
  cases cleanWords (splitWords text) with
  | error e => rfl
  | ok ts =>
    show Except.ok _ = Except.ok _
    congr 1
    ext t
    simp

/-- C19.  Lookup miss: a raw term whose normalised form is not a key of the index is
processed without a failed lookup (`count` is 0, so `at` is not called, and the set
of the term is empty): a term without sigil or with `-` leaves the running result
as it is, and a term with `+` makes it empty. -/
theorem lookup_miss (index : Index) (R : Finset Str) (term t : Str)
    (hclean : cleanToken term = .ok t) (hmiss : index.lookup t = none) :
    mapCount index t = 0 ∧ termUrls index t = .ok ∅ ∧
    queryStep index R term = .ok (if term.head? = some '+' then ∅ else R) := by
  refine ⟨?_, ?_, queryStep_miss index R term t hclean hmiss⟩
  · unfold mapCount
    rw [hmiss]
    rfl
  · rw [termUrls_eq, hmiss]
    rfl

theorem lookup_miss_witness :
    cleanToken "-cherry".toList = .ok "cherry".toList ∧
    fruitIndex.lookup "cherry".toList = none ∧
    queryStep fruitIndex {"d1".toList} "-cherry".toList = .ok {"d1".toList} :=
  ⟨by decide, by decide,
    (lookup_miss fruitIndex {"d1".toList} "-cherry".toList "cherry".toList
      (by decide) (by decide)).2.2⟩

end SearchEngine
